import Mathlib

/-!
Verification of the Shape-Shifter mosaic generator (`src/app.component.ts`).

The component has three algorithmic parts, embedded here over exact rationals
(JS `number` arithmetic, with `Math.random()` modelled as an explicit stream
`rng : Nat -> Rat` of draws, each call consuming the next stream element):

* `partition` — the recursive canvas subdivision (source lines 147-176).
  The source recursion has no structural bound, so the embedding is
  fuel-indexed and returns `none` when the fuel runs out; theorems below
  show which inputs make every sufficiently-fueled run defined and which
  concrete inputs make it diverge for every fuel.
* `regenerateLayout` — the top-level run: partition from `(0,0)`, then the
  Fisher-Yates shuffle of the index list and the id lookup
  (source lines 178-187).
* `generatedShapes` — the pure style-assignment `computed` body
  (source lines 50-73).
-/

namespace ShapeShifter

/-- Raw geometry of a shape (source interface `BaseShape`). -/
structure BaseShape where
  id : ℕ
  x : ℚ
  y : ℚ
  width : ℚ
  height : ℚ
deriving DecidableEq, Repr

/-- Source type `ShapeType = 'square' | 'circle'`. -/
inductive ShapeType where
  | square
  | circle
deriving DecidableEq, Repr

/-- A fully styled shape (source interface `Shape extends BaseShape`). -/
structure Shape extends BaseShape where
  color : String
  type : ShapeType
deriving DecidableEq, Repr

/-- JS `Math.round` on exact rationals: round half up, i.e. `⌊q + 1/2⌋`. -/
def jsRound (q : ℚ) : ℤ := ⌊q + 1/2⌋

/-- JS `l.slice(0, e)` for an integer `e`: a negative `e` counts from the end
(`max (l.length + e) 0` elements), a nonnegative `e` is clamped to the
length by `take`. -/
def jsSliceTo (l : List ℕ) (e : ℤ) : List ℕ :=
  l.take (if e < 0 then ((l.length : ℤ) + e).toNat else e.toNat)

/-- The configuration read by one partition run: `minShapeSize()`,
`maxShapeSize()` and the stream of `Math.random()` draws. -/
structure PartCfg where
  minSize : ℚ
  maxSize : ℚ
  rng : ℕ → ℚ

/-- The recursive `partition` closure (source lines 147-176), fuel-indexed.

State threaded exactly as in the source: `ctr` is `shapeIdCounter`, `ri` is
the position in the random stream.  One step:
`canSplitHorizontally = height >= minSize*2`,
`canSplitVertically = width >= minSize*2`,
`shouldStop = width <= maxSize && height <= maxSize && Math.random() > 0.1`
(the draw happens only when the two size tests pass, by `&&` short-circuit;
`ri1` accounts for it), emit the rectangle as a leaf when
`shouldStop || (!canSplitHorizontally && !canSplitVertically)`, otherwise
split vertically when `(width > height && canSplitVertically) ||
!canSplitHorizontally` at `splitX = Math.round(minSize + Math.random() *
(width - minSize*2))`, else horizontally at the analogous `splitY`.
Returns the emitted leaf list in emission order plus the final counter and
stream position, or `none` when the fuel is exhausted. -/
def partition (cfg : PartCfg) : ℕ → ℚ → ℚ → ℚ → ℚ → ℕ → ℕ →
    Option (List BaseShape × ℕ × ℕ)
  | 0, _, _, _, _, _, _ => none
  | fuel + 1, x, y, width, height, ctr, ri =>
    let ri1 : ℕ := if width ≤ cfg.maxSize ∧ height ≤ cfg.maxSize then ri + 1 else ri
    if (width ≤ cfg.maxSize ∧ height ≤ cfg.maxSize ∧ 1/10 < cfg.rng ri) ∨
        (¬ (cfg.minSize * 2 ≤ height) ∧ ¬ (cfg.minSize * 2 ≤ width)) then
      some ([⟨ctr, x, y, width, height⟩], ctr + 1, ri1)
    else if (height < width ∧ cfg.minSize * 2 ≤ width) ∨ ¬ (cfg.minSize * 2 ≤ height) then
      let splitX : ℚ := (jsRound (cfg.minSize + cfg.rng ri1 * (width - cfg.minSize * 2)) : ℤ)
      (partition cfg fuel x y splitX height ctr (ri1 + 1)).bind fun p1 =>
        (partition cfg fuel (x + splitX) y (width - splitX) height p1.2.1 p1.2.2).map fun p2 =>
          (p1.1 ++ p2.1, p2.2)
    else
      let splitY : ℚ := (jsRound (cfg.minSize + cfg.rng ri1 * (height - cfg.minSize * 2)) : ℤ)
      (partition cfg fuel x y width splitY ctr (ri1 + 1)).bind fun p1 =>
        (partition cfg fuel x (y + splitY) width (height - splitY) p1.2.1 p1.2.2).map fun p2 =>
          (p1.1 ++ p2.1, p2.2)

/-- One JS array swap `[l[a], l[b]] = [l[b], l[a]]`; both reads happen before
the writes.  Out-of-range indices never occur in the shuffle below because
`Math.random()` draws lie in `[0,1)`; the embedding returns the list
unchanged in that impossible case to stay total. -/
def lswap (l : List ℕ) (a b : ℕ) : List ℕ :=
  match l.get? a, l.get? b with
  | some xa, some xb => (l.set a xb).set b xa
  | _, _ => l

/-- The Fisher-Yates loop of `regenerateLayout` (source lines 183-186):
iterate `i` from `length-1` down to `1`, draw
`j = Math.floor(Math.random() * (i + 1))`, swap positions `i` and `j`.
`i` is the current loop index, `k` the position in the random stream. -/
def fyAux (g : ℕ → ℚ) : ℕ → ℕ → List ℕ → List ℕ
  | 0, _, l => l
  | i + 1, k, l => fyAux g i (k + 1) (lswap l (i + 1) (⌊g k * ((i : ℚ) + 2)⌋).toNat)

/-- Placeholder for an out-of-range `baseShapes[idx]` lookup (unreachable
when the shuffle output is a permutation of the positions). -/
def dummyShape : BaseShape := ⟨0, 0, 0, 0, 0⟩

/-- `regenerateLayout` (source lines 137-188), minus the DOM access: run
`partition(0, 0, canvasWidth, canvasHeight)` with the id counter reset to 0,
then build `indices = [0, ..., N-1]`, shuffle it in place with the
Fisher-Yates loop (drawing from the same random stream where the partition
left off), and store `indices.map(idx => baseShapes[idx].id)`.
Returns the new base-shape list and the stored shuffled id list. -/
def regenerateLayout (cfg : PartCfg) (canvasWidth canvasHeight : ℚ) (fuel : ℕ) :
    Option (List BaseShape × List ℕ) :=
  match partition cfg fuel 0 0 canvasWidth canvasHeight 0 0 with
  | none => none
  | some (newBaseShapes, _, ri) =>
    let indices := fyAux cfg.rng (newBaseShapes.length - 1) ri (List.range newBaseShapes.length)
    some (newBaseShapes, indices.map fun idx => (newBaseShapes.getD idx dummyShape).id)

/-- The blank ("white") id selection of `generatedShapes` (source lines
59-60): `numToMakeWhite = Math.floor(base.length * (whiteSpace / 100))` and
`whiteIndices = new Set(indices.slice(0, numToMakeWhite))`, kept as the
sliced list (membership is what the `Set` is used for). -/
def whiteList (n : ℕ) (indices : List ℕ) (whiteSpace : ℚ) : List ℕ :=
  jsSliceTo indices ⌊(n : ℚ) * (whiteSpace / 100)⌋

/-- The `generatedShapes` computed body (source lines 50-73): empty input
gives `[]`; otherwise each base shape keeps its geometry and id, gets the
uniform `shapeType`, and gets color `'#ffffff'` when its id is in the white
set, else `effectiveColors[id % effectiveColors.length]` where
`effectiveColors` is the palette, or `['#cccccc']` when the palette is
empty. -/
def generatedShapes (base : List BaseShape) (indices : List ℕ) (colors : List String)
    (whiteSpace : ℚ) (shapeType : ShapeType) : List Shape :=
  if base.length = 0 then []
  else
    let wl := whiteList base.length indices whiteSpace
    let effectiveColors := if 0 < colors.length then colors else ["#cccccc"]
    base.map fun shape =>
      { toBaseShape := shape
        color := if shape.id ∈ wl then "#ffffff"
                 else effectiveColors.getD (shape.id % effectiveColors.length) ""
        type := shapeType }

/-- Placeholder styled shape for positional `getD` lookups in theorem
statements. -/
def dummyStyled : Shape := ⟨dummyShape, "", ShapeType.square⟩

/-- Membership in the half-open box `[x, x+width) × [y, y+height)` of a
shape: the disjoint-tiling reading of a rectangle. -/
def inRect (s : BaseShape) (px py : ℚ) : Prop :=
  s.x ≤ px ∧ px < s.x + s.width ∧ s.y ≤ py ∧ py < s.y + s.height

/-- Membership in the open interior `(x, x+width) × (y, y+height)` of a
shape. -/
def inRectInterior (s : BaseShape) (px py : ℚ) : Prop :=
  s.x < px ∧ px < s.x + s.width ∧ s.y < py ∧ py < s.y + s.height

/-- A rational that is (the cast of) an integer. -/
def IsInt (q : ℚ) : Prop := ∃ n : ℤ, q = (n : ℤ)

/-- Two shapes whose half-open boxes share no point. -/
def RectDisjoint (s t : BaseShape) : Prop :=
  ∀ px py, ¬ (inRect s px py ∧ inRect t px py)

/-- During a split of an axis of extent `w ≥ 2*minSize` with a draw
`r ∈ [0,1)` and `minSize ≥ 1/2`, the rounded split offset lies in
`[1, w - minSize + 1/2]`. -/
lemma splitX_bounds (m w r : ℚ) (hm : 1/2 ≤ m) (hw : m * 2 ≤ w)
    (hr0 : 0 ≤ r) (hr1 : r < 1) :
    (1 : ℚ) ≤ ((jsRound (m + r * (w - m * 2)) : ℤ) : ℚ) ∧
      ((jsRound (m + r * (w - m * 2)) : ℤ) : ℚ) ≤ w - m + 1/2 := by
  have hd : 0 ≤ w - m * 2 := by linarith
  have hsp1 : m ≤ m + r * (w - m * 2) := by nlinarith [mul_nonneg hr0 hd]
  have hsp2 : m + r * (w - m * 2) ≤ w - m := by
    have := mul_le_of_le_one_left hd hr1.le
    linarith
  constructor
  · have h1 : (1 : ℤ) ≤ jsRound (m + r * (w - m * 2)) := by
      rw [jsRound, Int.le_floor]
      push_cast
      linarith
    exact_mod_cast h1
  · have h2 : ((jsRound (m + r * (w - m * 2)) : ℤ) : ℚ) ≤ (m + r * (w - m * 2)) + 1/2 := by
      rw [jsRound]
      exact_mod_cast Int.floor_le (m + r * (w - m * 2) + 1/2)
    linarith

/-- When the sizes are integers, the rounded split offset lies in
`[minSize, w - minSize]` exactly. -/
lemma splitX_int_bounds (mz wz : ℤ) (r : ℚ) (hw : (mz : ℚ) * 2 ≤ (wz : ℚ))
    (hr0 : 0 ≤ r) (hr1 : r < 1) :
    mz ≤ jsRound ((mz : ℚ) + r * ((wz : ℚ) - (mz : ℚ) * 2)) ∧
      jsRound ((mz : ℚ) + r * ((wz : ℚ) - (mz : ℚ) * 2)) ≤ wz - mz := by
  have hd : (0 : ℚ) ≤ (wz : ℚ) - (mz : ℚ) * 2 := by linarith
  have hsp1 : (mz : ℚ) ≤ (mz : ℚ) + r * ((wz : ℚ) - (mz : ℚ) * 2) := by
    nlinarith [mul_nonneg hr0 hd]
  have hsp2 : (mz : ℚ) + r * ((wz : ℚ) - (mz : ℚ) * 2) ≤ (wz : ℚ) - (mz : ℚ) := by
    have := mul_le_of_le_one_left hd hr1.le
    linarith
  constructor
  · rw [jsRound, Int.le_floor]
    linarith
  · rw [jsRound, Int.floor_le_iff]
    push_cast
    linarith

/-- Inversion for one successful step of `partition`: either the rectangle
was emitted as a leaf, or it was split vertically (requiring
`width ≥ 2*minSize`) or horizontally (requiring `height ≥ 2*minSize`) at the
rounded offset of some draw of the stream, with both recursive calls
succeeding and the results concatenated and the state threaded through. -/
lemma partition_succ_inv (cfg : PartCfg) (fuel : ℕ) (x y w h : ℚ) (ctr ri : ℕ)
    (ls : List BaseShape) (c' r' : ℕ)
    (hp : partition cfg (fuel + 1) x y w h ctr ri = some (ls, c', r')) :
    (ls = [⟨ctr, x, y, w, h⟩] ∧ c' = ctr + 1) ∨
    (∃ ri1 r l1 c1 r1 l2 c2 r2, r = cfg.rng ri1 ∧ cfg.minSize * 2 ≤ w ∧
      partition cfg fuel x y ((jsRound (cfg.minSize + r * (w - cfg.minSize * 2)) : ℤ) : ℚ)
          h ctr (ri1 + 1) = some (l1, c1, r1) ∧
      partition cfg fuel (x + ((jsRound (cfg.minSize + r * (w - cfg.minSize * 2)) : ℤ) : ℚ)) y
          (w - ((jsRound (cfg.minSize + r * (w - cfg.minSize * 2)) : ℤ) : ℚ)) h c1 r1
          = some (l2, c2, r2) ∧
      ls = l1 ++ l2 ∧ c' = c2 ∧ r' = r2) ∨
    (∃ ri1 r l1 c1 r1 l2 c2 r2, r = cfg.rng ri1 ∧ cfg.minSize * 2 ≤ h ∧
      partition cfg fuel x y w ((jsRound (cfg.minSize + r * (h - cfg.minSize * 2)) : ℤ) : ℚ)
          ctr (ri1 + 1) = some (l1, c1, r1) ∧
      partition cfg fuel x (y + ((jsRound (cfg.minSize + r * (h - cfg.minSize * 2)) : ℤ) : ℚ)) w
          (h - ((jsRound (cfg.minSize + r * (h - cfg.minSize * 2)) : ℤ) : ℚ)) c1 r1
          = some (l2, c2, r2) ∧
      ls = l1 ++ l2 ∧ c' = c2 ∧ r' = r2) := by
  simp only [partition] at hp
  split_ifs at hp <;>
    [skip; skip; skip; skip; skip; skip] <;>
  first
  | · simp only [Option.some.injEq, Prod.mk.injEq] at hp
      exact Or.inl ⟨hp.1.symm, hp.2.1.symm⟩
  | · rw [Option.bind_eq_some] at hp
      obtain ⟨p1, hc1, hp⟩ := hp
      rw [Option.map_eq_some'] at hp
      obtain ⟨p2, hc2, hval⟩ := hp
      simp only [Prod.mk.injEq, Prod.ext_iff] at hval
      obtain ⟨rfl, rfl, rfl⟩ := hval
      first
      | exact Or.inr (Or.inl ⟨_, _, p1.1, p1.2.1, p1.2.2, p2.1, p2.2.1, p2.2.2, rfl,
          by tauto, hc1, hc2, rfl, rfl, rfl⟩)
      | exact Or.inr (Or.inr ⟨_, _, p1.1, p1.2.1, p1.2.2, p2.1, p2.2.1, p2.2.2, rfl,
          by tauto, hc1, hc2, rfl, rfl, rfl⟩)

/-- Every terminating partition run conserves area: the sum of
`width * height` over the emitted leaves equals `width * height` of the
rectangle it was called on.  This needs no hypotheses at all: each split
decomposes the area algebraically. -/
lemma partition_area (cfg : PartCfg) :
    ∀ fuel x y w h ctr ri ls c' r',
      partition cfg fuel x y w h ctr ri = some (ls, c', r') →
      (ls.map fun s => s.width * s.height).sum = w * h := by
  intro fuel
  induction fuel with
  | zero =>
    intro x y w h ctr ri ls c' r' hp
    simp [partition] at hp
  | succ fuel ih =>
    intro x y w h ctr ri ls c' r' hp
    rcases partition_succ_inv cfg fuel x y w h ctr ri ls c' r' hp with
      ⟨rfl, -⟩ |
      ⟨ri1, r, l1, c1, r1, l2, c2, r2, -, -, hc1, hc2, rfl, -, -⟩ |
      ⟨ri1, r, l1, c1, r1, l2, c2, r2, -, -, hc1, hc2, rfl, -, -⟩
    · simp
    · have e1 := ih _ _ _ _ _ _ _ _ _ hc1
      have e2 := ih _ _ _ _ _ _ _ _ _ hc2
      simp only [List.map_append, List.sum_append, e1, e2]
      ring
    · have e1 := ih _ _ _ _ _ _ _ _ _ hc1
      have e2 := ih _ _ _ _ _ _ _ _ _ hc2
      simp only [List.map_append, List.sum_append, e1, e2]
      ring

/-- The ids of the leaves of a terminating run are consecutive from the
counter value it was called with, in emission order, and the returned
counter is the starting counter plus the leaf count. -/
lemma partition_ids (cfg : PartCfg) :
    ∀ fuel x y w h ctr ri ls c' r',
      partition cfg fuel x y w h ctr ri = some (ls, c', r') →
      ls.map (fun s => s.id) = List.range' ctr ls.length ∧ c' = ctr + ls.length := by
  intro fuel
  induction fuel with
  | zero =>
    intro x y w h ctr ri ls c' r' hp
    simp [partition] at hp
  | succ fuel ih =>
    intro x y w h ctr ri ls c' r' hp
    rcases partition_succ_inv cfg fuel x y w h ctr ri ls c' r' hp with
      ⟨rfl, rfl⟩ |
      ⟨ri1, r, l1, c1, r1, l2, c2, r2, -, -, hc1, hc2, rfl, rfl, -⟩ |
      ⟨ri1, r, l1, c1, r1, l2, c2, r2, -, -, hc1, hc2, rfl, rfl, -⟩
    · simp
    · obtain ⟨e1, f1⟩ := ih _ _ _ _ _ _ _ _ _ hc1
      obtain ⟨e2, f2⟩ := ih _ _ _ _ _ _ _ _ _ hc2
      subst f1 f2
      refine ⟨?_, by rw [List.length_append]; omega⟩
      rw [List.map_append, e1, e2, List.length_append, Nat.add_comm l1.length l2.length]
      exact List.range'_append_1 ctr l1.length l2.length
    · obtain ⟨e1, f1⟩ := ih _ _ _ _ _ _ _ _ _ hc1
      obtain ⟨e2, f2⟩ := ih _ _ _ _ _ _ _ _ _ hc2
      subst f1 f2
      refine ⟨?_, by rw [List.length_append]; omega⟩
      rw [List.map_append, e1, e2, List.length_append, Nat.add_comm l1.length l2.length]
      exact List.range'_append_1 ctr l1.length l2.length

/-- An interval splits as two half-open pieces at an interior point. -/
lemma interval_split (a b c p : ℚ) (h0 : a ≤ b) (h1 : b ≤ c) :
    (a ≤ p ∧ p < b) ∨ (b ≤ p ∧ p < c) ↔ (a ≤ p ∧ p < c) := by
  constructor
  · rintro (⟨u, v⟩ | ⟨u, v⟩) <;> exact ⟨by linarith, by linarith⟩
  · rintro ⟨u, v⟩
    rcases lt_or_le p b with hb | hb
    · exact Or.inl ⟨u, hb⟩
    · exact Or.inr ⟨hb, v⟩

/-- Tiling invariant of the partition: when `minSize ≥ 1/2` (as for the
integer sizes the program's controls produce) and all draws lie in `[0,1)`,
the leaves of a terminating run cover the half-open box of the rectangle it
was called on exactly, and are pairwise disjoint as half-open boxes. -/
lemma partition_cover (cfg : PartCfg) (hm : 1/2 ≤ cfg.minSize)
    (hr : ∀ n, 0 ≤ cfg.rng n ∧ cfg.rng n < 1) :
    ∀ fuel x y w h ctr ri ls c' r',
      partition cfg fuel x y w h ctr ri = some (ls, c', r') →
      (∀ px py, (∃ s ∈ ls, inRect s px py) ↔ inRect ⟨0, x, y, w, h⟩ px py) ∧
        List.Pairwise RectDisjoint ls := by
  intro fuel
  induction fuel with
  | zero =>
    intro x y w h ctr ri ls c' r' hp
    simp [partition] at hp
  | succ fuel ih =>
    intro x y w h ctr ri ls c' r' hp
    rcases partition_succ_inv cfg fuel x y w h ctr ri ls c' r' hp with
      ⟨rfl, -⟩ |
      ⟨ri1, r, l1, c1, r1, l2, c2, r2, rfl, hcan, hc1, hc2, rfl, -, -⟩ |
      ⟨ri1, r, l1, c1, r1, l2, c2, r2, rfl, hcan, hc1, hc2, rfl, -, -⟩
    · constructor
      · intro px py
        simp [inRect]
      · simp [List.pairwise_singleton]
    · -- vertical split
      obtain ⟨hb1, hb2⟩ := splitX_bounds cfg.minSize w (cfg.rng ri1) hm hcan
        (hr ri1).1 (hr ri1).2
      set sx : ℚ :=
        ((jsRound (cfg.minSize + cfg.rng ri1 * (w - cfg.minSize * 2)) : ℤ) : ℚ) with hsx
      have hsx0 : 0 ≤ sx := by linarith
      have hsxw : sx ≤ w := by linarith
      obtain ⟨cov1, dis1⟩ := ih _ _ _ _ _ _ _ _ _ hc1
      obtain ⟨cov2, dis2⟩ := ih _ _ _ _ _ _ _ _ _ hc2
      constructor
      · intro px py
        have hiff : (∃ s ∈ l1 ++ l2, inRect s px py) ↔
            (∃ s ∈ l1, inRect s px py) ∨ (∃ s ∈ l2, inRect s px py) := by
          simp [List.mem_append, or_and_right, exists_or]
        rw [hiff, cov1, cov2]
        simp only [inRect]
        constructor
        · rintro (⟨u, v, uy, vy⟩ | ⟨u, v, uy, vy⟩) <;>
            exact ⟨by linarith, by linarith, uy, vy⟩
        · rintro ⟨u, v, uy, vy⟩
          rcases lt_or_le px (x + sx) with hb | hb
          · exact Or.inl ⟨u, hb, uy, vy⟩
          · exact Or.inr ⟨hb, by linarith, uy, vy⟩
      · rw [List.pairwise_append]
        refine ⟨dis1, dis2, ?_⟩
        intro s hs t ht px py hcon
        have m1 := (cov1 px py).mp ⟨s, hs, hcon.1⟩
        have m2 := (cov2 px py).mp ⟨t, ht, hcon.2⟩
        simp only [inRect] at m1 m2
        linarith [m1.2.1, m2.1]
    · -- horizontal split
      obtain ⟨hb1, hb2⟩ := splitX_bounds cfg.minSize h (cfg.rng ri1) hm hcan
        (hr ri1).1 (hr ri1).2
      set sy : ℚ :=
        ((jsRound (cfg.minSize + cfg.rng ri1 * (h - cfg.minSize * 2)) : ℤ) : ℚ) with hsy
      have hsy0 : 0 ≤ sy := by linarith
      have hsyh : sy ≤ h := by linarith
      obtain ⟨cov1, dis1⟩ := ih _ _ _ _ _ _ _ _ _ hc1
      obtain ⟨cov2, dis2⟩ := ih _ _ _ _ _ _ _ _ _ hc2
      constructor
      · intro px py
        have hiff : (∃ s ∈ l1 ++ l2, inRect s px py) ↔
            (∃ s ∈ l1, inRect s px py) ∨ (∃ s ∈ l2, inRect s px py) := by
          simp [List.mem_append, or_and_right, exists_or]
        rw [hiff, cov1, cov2]
        simp only [inRect]
        constructor
        · rintro (⟨u, v, uy, vy⟩ | ⟨u, v, uy, vy⟩) <;>
            exact ⟨u, v, by linarith, by linarith⟩
        · rintro ⟨u, v, uy, vy⟩
          rcases lt_or_le py (y + sy) with hb | hb
          · exact Or.inl ⟨u, v, uy, hb⟩
          · exact Or.inr ⟨u, v, hb, by linarith⟩
      · rw [List.pairwise_append]
        refine ⟨dis1, dis2, ?_⟩
        intro s hs t ht px py hcon
        have m1 := (cov1 px py).mp ⟨s, hs, hcon.1⟩
        have m2 := (cov2 px py).mp ⟨t, ht, hcon.2⟩
        simp only [inRect] at m1 m2
        linarith [m1.2.2.2, m2.2.2.1]

/-- Integer casts are integers. -/
lemma isInt_intCast (n : ℤ) : IsInt ((n : ℤ) : ℚ) := ⟨n, rfl⟩

/-- Integrality is closed under addition. -/
lemma IsInt.add {a b : ℚ} (ha : IsInt a) (hb : IsInt b) : IsInt (a + b) := by
  obtain ⟨n, rfl⟩ := ha
  obtain ⟨m, rfl⟩ := hb
  exact ⟨n + m, by push_cast; ring⟩

/-- Integrality is closed under subtraction. -/
lemma IsInt.sub {a b : ℚ} (ha : IsInt a) (hb : IsInt b) : IsInt (a - b) := by
  obtain ⟨n, rfl⟩ := ha
  obtain ⟨m, rfl⟩ := hb
  exact ⟨n - m, by push_cast; ring⟩

/-- When the rectangle handed to `partition` has integer coordinates and
extents, so does every leaf it emits: the split offset is always
`Math.round`ed to an integer, so integrality propagates through every
level of the recursion (no hypothesis on `minSize` is needed for this). -/
lemma partition_int (cfg : PartCfg) :
    ∀ fuel x y w h ctr ri ls c' r',
      partition cfg fuel x y w h ctr ri = some (ls, c', r') →
      IsInt x → IsInt y → IsInt w → IsInt h →
      ∀ s ∈ ls, IsInt s.x ∧ IsInt s.y ∧ IsInt s.width ∧ IsInt s.height := by
  intro fuel
  induction fuel with
  | zero =>
    intro x y w h ctr ri ls c' r' hp
    simp [partition] at hp
  | succ fuel ih =>
    intro x y w h ctr ri ls c' r' hp hx hy hw hh
    rcases partition_succ_inv cfg fuel x y w h ctr ri ls c' r' hp with
      ⟨rfl, -⟩ |
      ⟨ri1, r, l1, c1, r1, l2, c2, r2, -, -, hc1, hc2, rfl, -, -⟩ |
      ⟨ri1, r, l1, c1, r1, l2, c2, r2, -, -, hc1, hc2, rfl, -, -⟩
    · intro s hs
      simp only [List.mem_singleton] at hs
      subst hs
      exact ⟨hx, hy, hw, hh⟩
    · intro s hs
      rcases List.mem_append.mp hs with h1 | h2
      · exact ih _ _ _ _ _ _ _ _ _ hc1 hx hy (isInt_intCast _) hh s h1
      · exact ih _ _ _ _ _ _ _ _ _ hc2 (hx.add (isInt_intCast _)) hy
          (hw.sub (isInt_intCast _)) hh s h2
    · intro s hs
      rcases List.mem_append.mp hs with h1 | h2
      · exact ih _ _ _ _ _ _ _ _ _ hc1 hx hy hw (isInt_intCast _) s h1
      · exact ih _ _ _ _ _ _ _ _ _ hc2 hx (hy.add (isInt_intCast _)) hw
          (hh.sub (isInt_intCast _)) s h2

/-- Size floor of the leaves: when `minSize` is an integer and the current
rectangle has integer extents each at least `min minSize W0` /
`min minSize H0`, every leaf keeps both bounds.  With `W0`, `H0` the root
extents this says: a leaf axis is never shorter than `minSize` unless the
root itself was already shorter than `minSize` on that axis (in which case
it is never shorter than the root). -/
lemma partition_minbound (cfg : PartCfg) (mz : ℤ) (hmz : cfg.minSize = (mz : ℚ))
    (hr : ∀ n, 0 ≤ cfg.rng n ∧ cfg.rng n < 1) (W0 H0 : ℚ) :
    ∀ fuel x y w h ctr ri ls c' r',
      partition cfg fuel x y w h ctr ri = some (ls, c', r') →
      IsInt w → IsInt h → min cfg.minSize W0 ≤ w → min cfg.minSize H0 ≤ h →
      ∀ s ∈ ls, min cfg.minSize W0 ≤ s.width ∧ min cfg.minSize H0 ≤ s.height := by
  intro fuel
  induction fuel with
  | zero =>
    intro x y w h ctr ri ls c' r' hp
    simp [partition] at hp
  | succ fuel ih =>
    intro x y w h ctr ri ls c' r' hp hw hh hbw hbh
    rcases partition_succ_inv cfg fuel x y w h ctr ri ls c' r' hp with
      ⟨rfl, -⟩ |
      ⟨ri1, r, l1, c1, r1, l2, c2, r2, hrdef, hcan, hc1, hc2, rfl, -, -⟩ |
      ⟨ri1, r, l1, c1, r1, l2, c2, r2, hrdef, hcan, hc1, hc2, rfl, -, -⟩
    · intro s hs
      simp only [List.mem_singleton] at hs
      subst hs
      exact ⟨hbw, hbh⟩
    · obtain ⟨wz, rfl⟩ := hw
      rw [hmz] at hcan hc1 hc2
      obtain ⟨hlo, hhi⟩ := splitX_int_bounds mz wz r (by exact_mod_cast hcan)
        (hrdef ▸ (hr ri1).1) (hrdef ▸ (hr ri1).2)
      have hlo' : cfg.minSize ≤ ((jsRound ((mz : ℚ) + r * ((wz : ℚ) - (mz : ℚ) * 2)) : ℤ) : ℚ) := by
        rw [hmz]; exact_mod_cast hlo
      have hhi' : ((jsRound ((mz : ℚ) + r * ((wz : ℚ) - (mz : ℚ) * 2)) : ℤ) : ℚ) ≤
          (wz : ℚ) - cfg.minSize := by
        rw [hmz]
        have : ((jsRound ((mz : ℚ) + r * ((wz : ℚ) - (mz : ℚ) * 2)) : ℤ) : ℚ) ≤
            ((wz - mz : ℤ) : ℚ) := by exact_mod_cast hhi
        push_cast at this
        linarith
      intro s hs
      rcases List.mem_append.mp hs with h1 | h2
      · exact ih _ _ _ _ _ _ _ _ _ hc1 (isInt_intCast _) hh
          (le_trans (min_le_left _ _) hlo') hbh s h1
      · refine ih _ _ _ _ _ _ _ _ _ hc2 ((isInt_intCast wz).sub (isInt_intCast _)) hh
          ?_ hbh s h2
        have : cfg.minSize ≤ (wz : ℚ) -
            ((jsRound ((mz : ℚ) + r * ((wz : ℚ) - (mz : ℚ) * 2)) : ℤ) : ℚ) := by linarith
        exact le_trans (min_le_left _ _) this
    · obtain ⟨hz, rfl⟩ := hh
      rw [hmz] at hcan hc1 hc2
      obtain ⟨hlo, hhi⟩ := splitX_int_bounds mz hz r (by exact_mod_cast hcan)
        (hrdef ▸ (hr ri1).1) (hrdef ▸ (hr ri1).2)
      have hlo' : cfg.minSize ≤ ((jsRound ((mz : ℚ) + r * ((hz : ℚ) - (mz : ℚ) * 2)) : ℤ) : ℚ) := by
        rw [hmz]; exact_mod_cast hlo
      have hhi' : ((jsRound ((mz : ℚ) + r * ((hz : ℚ) - (mz : ℚ) * 2)) : ℤ) : ℚ) ≤
          (hz : ℚ) - cfg.minSize := by
        rw [hmz]
        have : ((jsRound ((mz : ℚ) + r * ((hz : ℚ) - (mz : ℚ) * 2)) : ℤ) : ℚ) ≤
            ((hz - mz : ℤ) : ℚ) := by exact_mod_cast hhi
        push_cast at this
        linarith
      intro s hs
      rcases List.mem_append.mp hs with h1 | h2
      · exact ih _ _ _ _ _ _ _ _ _ hc1 hw (isInt_intCast _) hbw
          (le_trans (min_le_left _ _) hlo') s h1
      · refine ih _ _ _ _ _ _ _ _ _ hc2 hw ((isInt_intCast hz).sub (isInt_intCast _))
          hbw ?_ s h2
        have : cfg.minSize ≤ (hz : ℚ) -
            ((jsRound ((mz : ℚ) + r * ((hz : ℚ) - (mz : ℚ) * 2)) : ℤ) : ℚ) := by linarith
        exact le_trans (min_le_left _ _) this

/-- A terminating partition run always emits at least one shape. -/
lemma partition_ne_nil (cfg : PartCfg) :
    ∀ fuel x y w h ctr ri ls c' r',
      partition cfg fuel x y w h ctr ri = some (ls, c', r') → ls ≠ [] := by
  intro fuel
  induction fuel with
  | zero =>
    intro x y w h ctr ri ls c' r' hp
    simp [partition] at hp
  | succ fuel ih =>
    intro x y w h ctr ri ls c' r' hp
    rcases partition_succ_inv cfg fuel x y w h ctr ri ls c' r' hp with
      ⟨rfl, -⟩ |
      ⟨ri1, r, l1, c1, r1, l2, c2, r2, -, -, hc1, hc2, rfl, -, -⟩ |
      ⟨ri1, r, l1, c1, r1, l2, c2, r2, -, -, hc1, hc2, rfl, -, -⟩
    · simp
    · exact List.append_ne_nil_of_left_ne_nil (ih _ _ _ _ _ _ _ _ _ hc1) _
    · exact List.append_ne_nil_of_left_ne_nil (ih _ _ _ _ _ _ _ _ _ hc1) _

/-- On a canvas that is degenerate in both axes (`width ≤ 0` and
`height ≤ 0`) with a positive `minSize`, `partition` does not return an
empty set: it emits the degenerate rectangle itself as its single leaf
(neither axis admits a split, so the first stopping branch fires). -/
lemma partition_degenerate (cfg : PartCfg) (hm : 0 < cfg.minSize)
    (fuel : ℕ) (x y w h : ℚ) (ctr ri : ℕ) (hw : w ≤ 0) (hh : h ≤ 0) :
    (partition cfg (fuel + 1) x y w h ctr ri).map (fun t => t.1) =
      some [⟨ctr, x, y, w, h⟩] := by
  have hch : ¬ (cfg.minSize * 2 ≤ h) := by push_neg; linarith
  have hcv : ¬ (cfg.minSize * 2 ≤ w) := by push_neg; linarith
  simp only [partition]
  rw [if_pos (Or.inr ⟨hch, hcv⟩)]
  simp

/-- Fuel-sufficiency helper, vertical-split case: if every recursive call
whose `⌊2*width⌋ + ⌊2*height⌋` measure is below `fuel` succeeds, the
composed vertical split at measure below `fuel + 1` succeeds.  Needs
`minSize ≥ 1`: then the split offset is at least `1` and at most
`width - 1/2`, so both children lose at least `1/2` of the split axis. -/
lemma bindStepV (cfg : PartCfg) (fuel : ℕ) (x y w h : ℚ) (ctr ri2 ri3 : ℕ)
    (IH : ∀ x y w h ctr ri, (⌊2 * w⌋.toNat + ⌊2 * h⌋.toNat) < fuel →
      (partition cfg fuel x y w h ctr ri).isSome)
    (hm : 1 ≤ cfg.minSize) (hr : ∀ n, 0 ≤ cfg.rng n ∧ cfg.rng n < 1)
    (hcv : cfg.minSize * 2 ≤ w)
    (hfuel : (⌊2 * w⌋.toNat + ⌊2 * h⌋.toNat) < fuel + 1) :
    ((partition cfg fuel x y
        ((jsRound (cfg.minSize + cfg.rng ri3 * (w - cfg.minSize * 2)) : ℤ) : ℚ) h ctr ri2).bind
      fun p1 =>
        (partition cfg fuel
          (x + ((jsRound (cfg.minSize + cfg.rng ri3 * (w - cfg.minSize * 2)) : ℤ) : ℚ)) y
          (w - ((jsRound (cfg.minSize + cfg.rng ri3 * (w - cfg.minSize * 2)) : ℤ) : ℚ)) h
          p1.2.1 p1.2.2).map
        fun p2 => (p1.1 ++ p2.1, p2.2)).isSome := by
  obtain ⟨hb1, hb2⟩ := splitX_bounds cfg.minSize w (cfg.rng ri3) (by linarith) hcv
    (hr ri3).1 (hr ri3).2
  set sz : ℤ := jsRound (cfg.minSize + cfg.rng ri3 * (w - cfg.minSize * 2)) with hszdef
  have hsz1 : (1 : ℤ) ≤ sz := by exact_mod_cast hb1
  have hwlow : (4 : ℤ) ≤ ⌊2 * w⌋ := by
    rw [Int.le_floor]
    push_cast
    linarith
  have hfl1 : ⌊2 * ((sz : ℤ) : ℚ)⌋ = 2 * sz := by
    rw [show (2 : ℚ) * ((sz : ℤ) : ℚ) = ((2 * sz : ℤ) : ℚ) by push_cast; ring,
      Int.floor_intCast]
  have hup : 2 * sz ≤ ⌊2 * w⌋ - 1 := by
    have h2 : ((2 * sz : ℤ) : ℚ) ≤ 2 * w - 1 := by push_cast; linarith
    have h3 : (2 * sz : ℤ) ≤ ⌊2 * w - (1 : ℚ)⌋ := Int.le_floor.mpr h2
    have h4 : ⌊2 * w - (1 : ℚ)⌋ = ⌊2 * w⌋ - 1 := by
      exact_mod_cast Int.floor_sub_int (2 * w) 1
    omega
  have hmea1 : (⌊2 * ((sz : ℤ) : ℚ)⌋.toNat + ⌊2 * h⌋.toNat) < fuel := by
    rw [hfl1]
    omega
  obtain ⟨p1, hp1⟩ := Option.isSome_iff_exists.mp (IH x y _ h ctr ri2 hmea1)
  rw [hp1]
  simp only [Option.some_bind]
  have hflo2 : ⌊2 * (w - ((sz : ℤ) : ℚ))⌋ ≤ ⌊2 * w⌋ - 2 := by
    have hle : 2 * (w - ((sz : ℤ) : ℚ)) ≤ 2 * w - 2 := by linarith
    have h3 : ⌊2 * (w - ((sz : ℤ) : ℚ))⌋ ≤ ⌊2 * w - (2 : ℚ)⌋ := Int.floor_le_floor hle
    have h4 : ⌊2 * w - (2 : ℚ)⌋ = ⌊2 * w⌋ - 2 := by
      exact_mod_cast Int.floor_sub_int (2 * w) 2
    omega
  have hmea2 : (⌊2 * (w - ((sz : ℤ) : ℚ))⌋.toNat + ⌊2 * h⌋.toNat) < fuel := by omega
  obtain ⟨p2, hp2⟩ := Option.isSome_iff_exists.mp (IH _ y _ h p1.2.1 p1.2.2 hmea2)
  rw [hp2]
  simp

/-- Fuel-sufficiency helper, horizontal-split case (mirror image of
`bindStepV`). -/
lemma bindStepH (cfg : PartCfg) (fuel : ℕ) (x y w h : ℚ) (ctr ri2 ri3 : ℕ)
    (IH : ∀ x y w h ctr ri, (⌊2 * w⌋.toNat + ⌊2 * h⌋.toNat) < fuel →
      (partition cfg fuel x y w h ctr ri).isSome)
    (hm : 1 ≤ cfg.minSize) (hr : ∀ n, 0 ≤ cfg.rng n ∧ cfg.rng n < 1)
    (hch : cfg.minSize * 2 ≤ h)
    (hfuel : (⌊2 * w⌋.toNat + ⌊2 * h⌋.toNat) < fuel + 1) :
    ((partition cfg fuel x y w
        ((jsRound (cfg.minSize + cfg.rng ri3 * (h - cfg.minSize * 2)) : ℤ) : ℚ) ctr ri2).bind
      fun p1 =>
        (partition cfg fuel x
          (y + ((jsRound (cfg.minSize + cfg.rng ri3 * (h - cfg.minSize * 2)) : ℤ) : ℚ)) w
          (h - ((jsRound (cfg.minSize + cfg.rng ri3 * (h - cfg.minSize * 2)) : ℤ) : ℚ))
          p1.2.1 p1.2.2).map
        fun p2 => (p1.1 ++ p2.1, p2.2)).isSome := by
  obtain ⟨hb1, hb2⟩ := splitX_bounds cfg.minSize h (cfg.rng ri3) (by linarith) hch
    (hr ri3).1 (hr ri3).2
  set sz : ℤ := jsRound (cfg.minSize + cfg.rng ri3 * (h - cfg.minSize * 2)) with hszdef
  have hsz1 : (1 : ℤ) ≤ sz := by exact_mod_cast hb1
  have hhlow : (4 : ℤ) ≤ ⌊2 * h⌋ := by
    rw [Int.le_floor]
    push_cast
    linarith
  have hfl1 : ⌊2 * ((sz : ℤ) : ℚ)⌋ = 2 * sz := by
    rw [show (2 : ℚ) * ((sz : ℤ) : ℚ) = ((2 * sz : ℤ) : ℚ) by push_cast; ring,
      Int.floor_intCast]
  have hup : 2 * sz ≤ ⌊2 * h⌋ - 1 := by
    have h2 : ((2 * sz : ℤ) : ℚ) ≤ 2 * h - 1 := by push_cast; linarith
    have h3 : (2 * sz : ℤ) ≤ ⌊2 * h - (1 : ℚ)⌋ := Int.le_floor.mpr h2
    have h4 : ⌊2 * h - (1 : ℚ)⌋ = ⌊2 * h⌋ - 1 := by
      exact_mod_cast Int.floor_sub_int (2 * h) 1
    omega
  have hmea1 : (⌊2 * w⌋.toNat + ⌊2 * ((sz : ℤ) : ℚ)⌋.toNat) < fuel := by
    rw [hfl1]
    omega
  obtain ⟨p1, hp1⟩ := Option.isSome_iff_exists.mp (IH x y w _ ctr ri2 hmea1)
  rw [hp1]
  simp only [Option.some_bind]
  have hflo2 : ⌊2 * (h - ((sz : ℤ) : ℚ))⌋ ≤ ⌊2 * h⌋ - 2 := by
    have hle : 2 * (h - ((sz : ℤ) : ℚ)) ≤ 2 * h - 2 := by linarith
    have h3 : ⌊2 * (h - ((sz : ℤ) : ℚ))⌋ ≤ ⌊2 * h - (2 : ℚ)⌋ := Int.floor_le_floor hle
    have h4 : ⌊2 * h - (2 : ℚ)⌋ = ⌊2 * h⌋ - 2 := by
      exact_mod_cast Int.floor_sub_int (2 * h) 2
    omega
  have hmea2 : (⌊2 * w⌋.toNat + ⌊2 * (h - ((sz : ℤ) : ℚ))⌋.toNat) < fuel := by omega
  obtain ⟨p2, hp2⟩ := Option.isSome_iff_exists.mp (IH x _ w _ p1.2.1 p1.2.2 hmea2)
  rw [hp2]
  simp

/-- Termination: when `minSize ≥ 1` (every integer `minSize` the program
can supply) and all draws lie in `[0,1)` (the range of `Math.random`),
`partition` succeeds on every rectangle once the fuel exceeds
`⌊2*width⌋ + ⌊2*height⌋`: each split shortens the split axis by at least
`1/2`, so the recursion depth is finite. -/
lemma partition_total (cfg : PartCfg) (hm : 1 ≤ cfg.minSize)
    (hr : ∀ n, 0 ≤ cfg.rng n ∧ cfg.rng n < 1) :
    ∀ fuel x y w h ctr ri, (⌊2 * w⌋.toNat + ⌊2 * h⌋.toNat) < fuel →
      (partition cfg fuel x y w h ctr ri).isSome := by
  intro fuel
  induction fuel with
  | zero =>
    intro x y w h ctr ri hfuel
    omega
  | succ fuel ih =>
    intro x y w h ctr ri hfuel
    simp only [partition]
    split_ifs
    all_goals
      first
        | simp
        | exact bindStepV cfg fuel x y w h ctr _ _ ih hm hr (by tauto) hfuel
        | exact bindStepH cfg fuel x y w h ctr _ _ ih hm hr (by tauto) hfuel

/-- The input on which the recursion loops forever: `minSize = maxSize =
1/4` with all draws `0`. -/
def cfgD : PartCfg := ⟨1/4, 1/4, fun _ => 0⟩

/-- On the degenerate strip `1 × 0`, `cfgD` makes `partition` reproduce the
same strip as its own second child, so no amount of fuel suffices. -/
lemma cfgD_loop_thin : ∀ fuel ctr ri, partition cfgD fuel 0 0 1 0 ctr ri = none := by
  intro fuel
  induction fuel with
  | zero =>
    intro ctr ri
    rfl
  | succ fuel ih =>
    intro ctr ri
    norm_num [partition, jsRound, show cfgD.minSize = (1 : ℚ)/4 from rfl,
      show cfgD.maxSize = (1 : ℚ)/4 from rfl, show cfgD.rng = fun _ => (0 : ℚ) from rfl]
    intro a c b hsome
    exact ih c b

/-- On the unit square, `cfgD` splits horizontally at offset `0`, whose
first child is the looping `1 × 0` strip: the run diverges for every
fuel. -/
lemma cfgD_loop_root : ∀ fuel ctr ri, partition cfgD fuel 0 0 1 1 ctr ri = none := by
  intro fuel
  cases fuel with
  | zero =>
    intro ctr ri
    rfl
  | succ fuel =>
    intro ctr ri
    norm_num [partition, jsRound, cfgD_loop_thin, show cfgD.minSize = (1 : ℚ)/4 from rfl,
      show cfgD.maxSize = (1 : ℚ)/4 from rfl, show cfgD.rng = fun _ => (0 : ℚ) from rfl]

/-- Counting after a single in-range write: setting position `n` to `a`
removes one occurrence of the old entry and adds one of `a`. -/
lemma count_set_add (l : List ℕ) : ∀ n a x : ℕ, n < l.length →
    (l.set n a).count x + (if l.getD n 0 = x then 1 else 0) =
      l.count x + (if a = x then 1 else 0) := by
  induction l with
  | nil =>
    intro n a x hn
    simp at hn
  | cons c t ihl =>
    intro n a x hn
    cases n with
    | zero =>
      simp only [List.set_cons_zero, List.getD_cons_zero, List.count_cons, beq_iff_eq]
      split_ifs <;> omega
    | succ n =>
      have hn' : n < t.length := by simpa using hn
      have hrec := ihl n a x hn'
      simp only [List.set_cons_succ, List.getD_cons_succ, List.count_cons, beq_iff_eq]
      split_ifs at hrec ⊢ <;> omega

/-- A JS swap of two positions is a permutation of the list. -/
lemma lswap_perm (l : List ℕ) (a b : ℕ) : (lswap l a b).Perm l := by
  unfold lswap
  cases ha : l.get? a with
  | none => exact List.Perm.refl l
  | some xa =>
    cases hb : l.get? b with
    | none => exact List.Perm.refl l
    | some xb =>
      show ((l.set a xb).set b xa).Perm l
      have hal : a < l.length := by
        by_contra hcon
        rw [List.get?_eq_none.mpr (le_of_not_lt hcon)] at ha
        exact Option.noConfusion ha
      have hbl : b < l.length := by
        by_contra hcon
        rw [List.get?_eq_none.mpr (le_of_not_lt hcon)] at hb
        exact Option.noConfusion hb
      have hav : l.getD a 0 = xa := by rw [List.getD_eq_getD_get? l 0 a, ha]; rfl
      have hbv : l.getD b 0 = xb := by rw [List.getD_eq_getD_get? l 0 b, hb]; rfl
      have hbl1 : b < (l.set a xb).length := by simpa using hbl
      have key : (l.set a xb).getD b 0 = xb := by
        by_cases hne : a = b
        · subst hne
          rw [List.getD_eq_getElem _ _ hbl1]
          exact List.getElem_set_self (by simpa using hal)
        · rw [List.getD_eq_getElem _ _ hbl1, List.getElem_set_ne hne]
          rw [List.getD_eq_getElem _ _ hbl] at hbv
          exact hbv
      rw [List.perm_iff_count]
      intro x
      have e1 := count_set_add l a xb x hal
      have e2 := count_set_add (l.set a xb) b xa x hbl1
      rw [key] at e2
      rw [hav] at e1
      split_ifs at e1 e2 <;> omega

/-- The whole Fisher-Yates loop permutes its input list. -/
lemma fyAux_perm (g : ℕ → ℚ) : ∀ i k l, (fyAux g i k l).Perm l := by
  intro i
  induction i with
  | zero =>
    intro k l
    exact List.Perm.refl l
  | succ i ihi =>
    intro k l
    exact (ihi (k + 1) _).trans (lswap_perm l (i + 1) _)

/-- What a `getD` lookup into `generatedShapes` returns at an in-range
position: the base shape at that position, styled. -/
lemma generatedShapes_color (base : List BaseShape) (indices : List ℕ)
    (colors : List String) (ws : ℚ) (ty : ShapeType) (i : ℕ) (hi : i < base.length) :
    (generatedShapes base indices colors ws ty).getD i dummyStyled =
      { toBaseShape := base.get ⟨i, hi⟩
        color := if (base.get ⟨i, hi⟩).id ∈ whiteList base.length indices ws then "#ffffff"
                 else (if 0 < colors.length then colors else ["#cccccc"]).getD
                   ((base.get ⟨i, hi⟩).id %
                     (if 0 < colors.length then colors else ["#cccccc"]).length) ""
        type := ty } := by
  unfold generatedShapes
  rw [if_neg (by omega : ¬ base.length = 0)]
  rw [List.getD_eq_getElem _ _ (by simpa using hi)]
  simp

/-- The style layer never drops or adds shapes. -/
lemma generatedShapes_length (base : List BaseShape) (indices : List ℕ)
    (colors : List String) (ws : ℚ) (ty : ShapeType) :
    (generatedShapes base indices colors ws ty).length = base.length := by
  unfold generatedShapes
  by_cases h : base.length = 0
  · rw [if_pos h]
    simp [h]
  · rw [if_neg h]
    simp

/-- For a nonnegative percentage the blank list is a plain prefix of the
stored order, of length `min ⌊N * ws/100⌋ N`. -/
lemma whiteList_nonneg (n : ℕ) (indices : List ℕ) (ws : ℚ) (h0 : 0 ≤ ws) :
    whiteList n indices ws = indices.take (⌊(n : ℚ) * (ws / 100)⌋).toNat := by
  unfold whiteList jsSliceTo
  rw [if_neg]
  rw [not_lt]
  exact Int.floor_nonneg.mpr (by positivity)

/-- Concrete run configuration for witnesses: `minSize 50`, `maxSize 150`,
all draws `1/2` (so a `100 × 100` canvas stops immediately). -/
def cfgA : PartCfg := ⟨50, 150, fun _ => 1/2⟩

/-- Concrete configuration exhibiting leaves thinner than `minSize`:
`minSize 30`, `maxSize 150`, all draws `1/2`. -/
def cfgB : PartCfg := ⟨30, 150, fun _ => 1/2⟩

/-- Concrete configuration with fractional `minSize = 1/10 < 1/2`
(`maxSize 2`); the draws `0, 9/10, 1/2, 1/2, ...` make the rounded split
point overshoot the rectangle. -/
def cfgC : PartCfg := ⟨1/10, 2, fun n => if n = 0 then 0 else if n = 1 then 9/10 else 1/2⟩

/-- C1 (amended: `0 < minSize` strengthened to `1/2 ≤ minSize`, which holds
for every integer `minSize` the program can supply): for every terminating
partition run with positive canvas and `1/2 ≤ minSize ≤ maxSize` and draws
in `[0,1)`, the leaves are pairwise interior-disjoint, their half-open
boxes cover the canvas box exactly, and the sum of `width * height` over
the leaves equals the canvas area exactly. -/
theorem partition_tiles_canvas (cfg : PartCfg) (W H : ℚ) (fuel : ℕ)
    (hW : 0 < W) (hH : 0 < H) (hm : 1/2 ≤ cfg.minSize) (hmM : cfg.minSize ≤ cfg.maxSize)
    (hr : ∀ n, 0 ≤ cfg.rng n ∧ cfg.rng n < 1) (ls : List BaseShape) (c' r' : ℕ)
    (h : partition cfg fuel 0 0 W H 0 0 = some (ls, c', r')) :
    List.Pairwise (fun s t => ∀ px py, ¬ (inRectInterior s px py ∧ inRectInterior t px py)) ls ∧
      (∀ px py, (∃ s ∈ ls, inRect s px py) ↔ (0 ≤ px ∧ px < W ∧ 0 ≤ py ∧ py < H)) ∧
      (ls.map fun s => s.width * s.height).sum = W * H := by
  obtain ⟨cov, dis⟩ := partition_cover cfg hm hr fuel 0 0 W H 0 0 ls c' r' h
  refine ⟨?_, ?_, partition_area cfg fuel 0 0 W H 0 0 ls c' r' h⟩
  · refine dis.imp ?_
    intro s t hst px py hcon
    simp only [inRectInterior] at hcon
    exact hst px py ⟨⟨le_of_lt hcon.1.1, hcon.1.2.1, le_of_lt hcon.1.2.2.1, hcon.1.2.2.2⟩,
      ⟨le_of_lt hcon.2.1, hcon.2.2.1, le_of_lt hcon.2.2.2.1, hcon.2.2.2.2⟩⟩
  · intro px py
    have hc := cov px py
    simpa [inRect] using hc

/-- Witness for the amended C1 at a concrete one-leaf run. -/
theorem partition_tiles_canvas_witness :
    List.Pairwise (fun s t => ∀ px py, ¬ (inRectInterior s px py ∧ inRectInterior t px py))
        [(⟨0, 0, 0, 100, 100⟩ : BaseShape)] ∧
      (∀ px py, (∃ s ∈ [(⟨0, 0, 0, 100, 100⟩ : BaseShape)], inRect s px py) ↔
        (0 ≤ px ∧ px < 100 ∧ 0 ≤ py ∧ py < 100)) ∧
      (([(⟨0, 0, 0, 100, 100⟩ : BaseShape)]).map fun s => s.width * s.height).sum =
        (100 : ℚ) * 100 :=
  partition_tiles_canvas cfgA 100 100 1 (by norm_num) (by norm_num)
    (by norm_num [cfgA]) (by norm_num [cfgA]) (fun n => by norm_num [cfgA])
    [⟨0, 0, 0, 100, 100⟩] 1 1 (by norm_num [partition, cfgA])

/-- Counterexample to C1 as stated (`0 < minSize` alone): with
`minSize = 1/10 ≤ maxSize = 2`, a positive `7/10 × 1/10` canvas, and draws
inside `[0,1)`, the run terminates but the rounded split point `1`
overshoots the canvas: a leaf of width `1` covers the point
`(9/10, 1/20)` that lies outside the canvas box, so the union of the
leaves is not the canvas. -/
theorem partition_tiles_canvas_counterexample :
    0 < cfgC.minSize ∧ cfgC.minSize ≤ cfgC.maxSize ∧
      (∀ n, 0 ≤ cfgC.rng n ∧ cfgC.rng n < 1) ∧ (0 : ℚ) < 7/10 ∧ (0 : ℚ) < 1/10 ∧
      partition cfgC 3 0 0 (7/10) (1/10) 0 0 =
        some ([⟨0, 0, 0, 1, 1/10⟩, ⟨1, 1, 0, -(3/10), 1/10⟩], 2, 4) ∧
      ¬ (∀ px py, (∃ s ∈ [(⟨0, 0, 0, 1, 1/10⟩ : BaseShape), ⟨1, 1, 0, -(3/10), 1/10⟩],
          inRect s px py) ↔ (0 ≤ px ∧ px < 7/10 ∧ 0 ≤ py ∧ py < 1/10)) := by
  refine ⟨by norm_num [cfgC], by norm_num [cfgC],
    fun n => by simp only [cfgC]; split_ifs <;> norm_num, by norm_num, by norm_num,
    by norm_num [partition, cfgC, jsRound], ?_⟩
  intro hiff
  have h9 := (hiff (9/10) (1/20)).mp
    ⟨⟨0, 0, 0, 1, 1/10⟩, by simp, by norm_num [inRect]⟩
  norm_num at h9

/-- C2 (amended: the exemption "sole root leaf of a degenerate canvas" is
replaced by the per-axis truth): with integer `minSize` and integer canvas
extents, every leaf satisfies `width ≥ min minSize W` and
`height ≥ min minSize H` — i.e. an axis of a leaf falls below `minSize`
exactly when the canvas itself was below `minSize` on that axis, and even
then never below the canvas extent. -/
theorem partition_leaf_min_size_bound (cfg : PartCfg) (mz : ℤ)
    (hmz : cfg.minSize = (mz : ℚ)) (hpos : 0 < cfg.minSize) (hmM : cfg.minSize ≤ cfg.maxSize)
    (W H : ℚ) (hW : IsInt W) (hH : IsInt H)
    (hr : ∀ n, 0 ≤ cfg.rng n ∧ cfg.rng n < 1) (fuel : ℕ) (ls : List BaseShape) (c' r' : ℕ)
    (h : partition cfg fuel 0 0 W H 0 0 = some (ls, c', r')) :
    ∀ s ∈ ls, min cfg.minSize W ≤ s.width ∧ min cfg.minSize H ≤ s.height :=
  partition_minbound cfg mz hmz hr W H fuel 0 0 W H 0 0 ls c' r' h hW hH
    (min_le_right _ _) (min_le_right _ _)

/-- Witness for the amended C2 at a concrete one-leaf run, specialised to
its single leaf. -/
theorem partition_leaf_min_size_bound_witness :
    min cfgA.minSize 100 ≤ (⟨0, 0, 0, 100, 100⟩ : BaseShape).width ∧
      min cfgA.minSize 100 ≤ (⟨0, 0, 0, 100, 100⟩ : BaseShape).height :=
  partition_leaf_min_size_bound cfgA 50 (by norm_num [cfgA]) (by norm_num [cfgA])
    (by norm_num [cfgA]) 100 100 ⟨100, by norm_num⟩ ⟨100, by norm_num⟩
    (fun n => by norm_num [cfgA]) 1 [⟨0, 0, 0, 100, 100⟩] 1 1
    (by norm_num [partition, cfgA]) ⟨0, 0, 0, 100, 100⟩ (by simp)

/-- Counterexample to C2 as stated: on a `200 × 10` canvas with
`minSize = 30 ≤ maxSize = 150` (all integers, draws `1/2`), the run splits
once and emits two leaves of height `10 < 30`; neither is "the sole root
leaf", and the canvas is not degenerate in both axes (`30 > 200` fails). -/
theorem partition_leaf_min_size_counterexample :
    partition cfgB 2 0 0 200 10 0 0 =
        some ([⟨0, 0, 0, 100, 10⟩, ⟨1, 100, 0, 100, 10⟩], 2, 3) ∧
      0 < cfgB.minSize ∧ cfgB.minSize ≤ cfgB.maxSize ∧
      (∀ n, 0 ≤ cfgB.rng n ∧ cfgB.rng n < 1) ∧
      ¬ (cfgB.minSize > 200) ∧
      ((⟨0, 0, 0, 100, 10⟩ : BaseShape) ∈
          [(⟨0, 0, 0, 100, 10⟩ : BaseShape), ⟨1, 100, 0, 100, 10⟩] ∧
        (⟨0, 0, 0, 100, 10⟩ : BaseShape).height < cfgB.minSize) := by
  refine ⟨by norm_num [partition, cfgB, jsRound], by norm_num [cfgB], by norm_num [cfgB],
    fun n => by norm_num [cfgB], by norm_num [cfgB], by simp, by norm_num [cfgB]⟩

/-- C3 (amended: `0 < minSize` strengthened to `1 ≤ minSize`, which holds
for every integer `minSize` the program can supply): with draws in `[0,1)`,
the recursion terminates — any fuel above `⌊2*width⌋ + ⌊2*height⌋`
suffices, because each split removes at least `1/2` of the split axis. -/
theorem partition_terminates_ge_one (cfg : PartCfg) (hm : 1 ≤ cfg.minSize)
    (hmM : cfg.minSize ≤ cfg.maxSize) (hr : ∀ n, 0 ≤ cfg.rng n ∧ cfg.rng n < 1)
    (x y w h : ℚ) (ctr ri fuel : ℕ)
    (hfuel : (⌊2 * w⌋.toNat + ⌊2 * h⌋.toNat) < fuel) :
    ∃ res, partition cfg fuel x y w h ctr ri = some res :=
  Option.isSome_iff_exists.mp (partition_total cfg hm hr fuel x y w h ctr ri hfuel)

/-- Witness for the amended C3 at a concrete run. -/
theorem partition_terminates_ge_one_witness :
    ∃ res, partition cfgA 401 0 0 100 100 0 0 = some res :=
  partition_terminates_ge_one cfgA (by norm_num [cfgA]) (by norm_num [cfgA])
    (fun n => by norm_num [cfgA]) 0 0 100 100 0 0 401 (by norm_num; decide)

/-- Counterexample to C3 as stated: with the positive sizes
`minSize = maxSize = 1/4` and the all-zero draw stream (inside `[0,1)`),
the run on a `1 × 1` canvas reproduces its own input rectangle as a child
and never terminates: no fuel makes it return. -/
theorem partition_terminates_counterexample :
    0 < cfgD.minSize ∧ cfgD.minSize ≤ cfgD.maxSize ∧
      (∀ n, 0 ≤ cfgD.rng n ∧ cfgD.rng n < 1) ∧ (0 : ℚ) < 1 ∧
      ¬ ∃ fuel ctr ri res, partition cfgD fuel 0 0 1 1 ctr ri = some res := by
  refine ⟨by norm_num [cfgD], by norm_num [cfgD], fun n => by norm_num [cfgD],
    by norm_num, ?_⟩
  rintro ⟨fuel, ctr, ri, res, hres⟩
  rw [cfgD_loop_root fuel ctr ri] at hres
  exact Option.noConfusion hres

/-- C4 (amended: the code has no degenerate-canvas guard and never returns
an empty shape set): when both canvas extents are `≤ 0` and `minSize > 0`,
the run emits the degenerate rectangle itself as its sole leaf; and every
terminating run emits at least one `BaseShape`. -/
theorem partition_degenerate_emits_root (cfg : PartCfg) (hm : 0 < cfg.minSize) :
    (∀ fuel x y w h ctr ri, w ≤ 0 → h ≤ 0 →
        (partition cfg (fuel + 1) x y w h ctr ri).map (fun t => t.1) =
          some [⟨ctr, x, y, w, h⟩]) ∧
      ∀ fuel x y w h ctr ri ls c' r',
        partition cfg fuel x y w h ctr ri = some (ls, c', r') → ls ≠ [] :=
  ⟨fun fuel x y w h ctr ri hw hh => partition_degenerate cfg hm fuel x y w h ctr ri hw hh,
   fun fuel x y w h ctr ri ls c' r' hp => partition_ne_nil cfg fuel x y w h ctr ri ls c' r' hp⟩

/-- Witness for the amended C4. -/
theorem partition_degenerate_emits_root_witness :
    (∀ fuel x y w h ctr ri, w ≤ 0 → h ≤ 0 →
        (partition cfgA (fuel + 1) x y w h ctr ri).map (fun t => t.1) =
          some [⟨ctr, x, y, w, h⟩]) ∧
      ∀ fuel x y w h ctr ri ls c' r',
        partition cfgA fuel x y w h ctr ri = some (ls, c', r') → ls ≠ [] :=
  partition_degenerate_emits_root cfgA (by norm_num [cfgA])

/-- Counterexample to C4 as stated: a `0 × 0` canvas (so `width ≤ 0` and
`height ≤ 0`) still produces one `BaseShape`, not an empty set. -/
theorem degenerate_canvas_counterexample :
    (partition cfgA 1 0 0 0 0 0 0).map (fun t => t.1) = some [⟨0, 0, 0, 0, 0⟩] ∧
      some [(⟨0, 0, 0, 0, 0⟩ : BaseShape)] ≠ some ([] : List BaseShape) := by
  constructor
  · norm_num [partition, cfgA, jsRound]
  · simp

/-- C10: if the canvas extents are integers (as `offsetWidth` and
`offsetHeight` are) and `minSize` is an integer, every leaf of a
terminating run has integer `x`, `y`, `width`, `height`: split coordinates
are rounded to integers, and integrality propagates through every level of
the recursion. -/
theorem partition_integrality (cfg : PartCfg) (W H : ℚ) (fuel : ℕ)
    (hm : IsInt cfg.minSize) (hW : IsInt W) (hH : IsInt H)
    (ls : List BaseShape) (c' r' : ℕ)
    (h : partition cfg fuel 0 0 W H 0 0 = some (ls, c', r')) :
    ∀ s ∈ ls, IsInt s.x ∧ IsInt s.y ∧ IsInt s.width ∧ IsInt s.height :=
  partition_int cfg fuel 0 0 W H 0 0 ls c' r' h ⟨0, by norm_num⟩ ⟨0, by norm_num⟩ hW hH

/-- Witness for C10 at a concrete one-leaf run, specialised to its single
leaf. -/
theorem partition_integrality_witness :
    IsInt (⟨0, 0, 0, 100, 100⟩ : BaseShape).x ∧
      IsInt (⟨0, 0, 0, 100, 100⟩ : BaseShape).y ∧
      IsInt (⟨0, 0, 0, 100, 100⟩ : BaseShape).width ∧
      IsInt (⟨0, 0, 0, 100, 100⟩ : BaseShape).height :=
  partition_integrality cfgA 100 100 1 ⟨50, by norm_num [cfgA]⟩ ⟨100, by norm_num⟩
    ⟨100, by norm_num⟩ [⟨0, 0, 0, 100, 100⟩] 1 1 (by norm_num [partition, cfgA])
    ⟨0, 0, 0, 100, 100⟩ (by simp)

/-- C5: for a fixed base-shape set and palette, a shape id that is
non-blank under two (arbitrary) blank-fraction inputs and stored orders
receives the identical color in both derivations, namely
`effectivePalette[id % |effectivePalette|]`: the palette slot is a function
of the id and the palette only. -/
theorem color_stability (base : List BaseShape) (idx1 idx2 : List ℕ)
    (colors : List String) (ws1 ws2 : ℚ) (ty1 ty2 : ShapeType) (i : ℕ)
    (hi : i < base.length)
    (h1 : (base.get ⟨i, hi⟩).id ∉ whiteList base.length idx1 ws1)
    (h2 : (base.get ⟨i, hi⟩).id ∉ whiteList base.length idx2 ws2) :
    ((generatedShapes base idx1 colors ws1 ty1).getD i dummyStyled).color =
        ((generatedShapes base idx2 colors ws2 ty2).getD i dummyStyled).color ∧
      ((generatedShapes base idx1 colors ws1 ty1).getD i dummyStyled).color =
        (if 0 < colors.length then colors else ["#cccccc"]).getD
          ((base.get ⟨i, hi⟩).id %
            (if 0 < colors.length then colors else ["#cccccc"]).length) "" := by
  rw [generatedShapes_color base idx1 colors ws1 ty1 i hi,
    generatedShapes_color base idx2 colors ws2 ty2 i hi]
  simp only [if_neg h1, if_neg h2]
  simp

/-- Witness for C5: id `0` is non-blank under fraction `0` with order
`[0,1]` and under fraction `50` with order `[1,0]`, and keeps color
`'#111'` in both runs. -/
theorem color_stability_witness :
    ((generatedShapes [⟨0, 0, 0, 10, 10⟩, ⟨1, 10, 0, 10, 10⟩] [0, 1] ["#111", "#222"] 0
        ShapeType.square).getD 0 dummyStyled).color =
      ((generatedShapes [⟨0, 0, 0, 10, 10⟩, ⟨1, 10, 0, 10, 10⟩] [1, 0] ["#111", "#222"] 50
        ShapeType.circle).getD 0 dummyStyled).color ∧
    ((generatedShapes [⟨0, 0, 0, 10, 10⟩, ⟨1, 10, 0, 10, 10⟩] [0, 1] ["#111", "#222"] 0
        ShapeType.square).getD 0 dummyStyled).color =
      (if 0 < (["#111", "#222"] : List String).length then ["#111", "#222"]
       else ["#cccccc"]).getD
        (((([⟨0, 0, 0, 10, 10⟩, ⟨1, 10, 0, 10, 10⟩] :
            List BaseShape)).get ⟨0, by norm_num⟩).id %
          (if 0 < (["#111", "#222"] : List String).length then ["#111", "#222"]
           else ["#cccccc"]).length) "" :=
  color_stability [⟨0, 0, 0, 10, 10⟩, ⟨1, 10, 0, 10, 10⟩] [0, 1] [1, 0] ["#111", "#222"]
    0 50 ShapeType.square ShapeType.circle 0 (by norm_num)
    (by norm_num [whiteList, jsSliceTo]) (by norm_num [whiteList, jsSliceTo])

/-- C6 (amended: restricted to nonnegative blank fractions, where the claim
holds; a negative fraction breaks it): for `0 ≤ ws1 ≤ ws2` the blank set
for `ws1` is contained in the blank set for `ws2` — both are prefixes of
the same stored order. -/
theorem blank_set_monotone (n : ℕ) (indices : List ℕ) (ws1 ws2 : ℚ)
    (h0 : 0 ≤ ws1) (h12 : ws1 ≤ ws2) :
    ∀ a ∈ whiteList n indices ws1, a ∈ whiteList n indices ws2 := by
  intro a ha
  rw [whiteList_nonneg n indices ws1 h0] at ha
  rw [whiteList_nonneg n indices ws2 (le_trans h0 h12)]
  have hfl : ⌊(n : ℚ) * (ws1 / 100)⌋ ≤ ⌊(n : ℚ) * (ws2 / 100)⌋ := by
    apply Int.floor_le_floor
    have hd : ws1 / 100 ≤ ws2 / 100 := by linarith
    exact mul_le_mul_of_nonneg_left hd (by positivity)
  have ht : (⌊(n : ℚ) * (ws1 / 100)⌋).toNat ≤ (⌊(n : ℚ) * (ws2 / 100)⌋).toNat :=
    Int.toNat_le_toNat hfl
  have heq : indices.take (⌊(n : ℚ) * (ws1 / 100)⌋).toNat =
      (indices.take (⌊(n : ℚ) * (ws2 / 100)⌋).toNat).take
        (⌊(n : ℚ) * (ws1 / 100)⌋).toNat := by
    rw [List.take_take, min_eq_left ht]
  rw [heq] at ha
  exact List.take_subset _ _ ha

/-- Witness for the amended C6 at concrete fractions `20 ≤ 40`,
specialised to the blanked id `0`. -/
theorem blank_set_monotone_witness :
    0 ∈ whiteList 5 [0, 1, 2, 3, 4] 40 :=
  blank_set_monotone 5 [0, 1, 2, 3, 4] 20 40 (by norm_num) (by norm_num) 0
    (by norm_num [whiteList, jsSliceTo])

/-- Counterexample to C6 as stated (arbitrary `f1 ≤ f2`): with the JS
negative-slice semantics, fraction `-20/100` blanks ids `0,1,2,3` while
fraction `0` blanks nothing, so the blank set shrinks although the
fraction increased. -/
theorem blank_set_monotone_counterexample :
    (-20 : ℚ) ≤ 0 ∧ 0 ∈ whiteList 5 [0, 1, 2, 3, 4] (-20) ∧
      0 ∉ whiteList 5 [0, 1, 2, 3, 4] 0 := by
  refine ⟨by norm_num, ?_, ?_⟩
  · norm_num [whiteList, jsSliceTo]
    decide
  · norm_num [whiteList, jsSliceTo]

/-- C7 (amended: the nonnegative clamping is as claimed, but a negative
fraction is not clamped to an empty blank set — JS `slice` counts a
negative end from the end of the array): over `N` shapes with a stored
order of length `N`, the blank count is `min ⌊N*f⌋ N` for `f ≥ 0` (so a
fraction above `1` blanks all `N`), while for `f < 0` the blank list is
the first `max (N + ⌊N*f⌋) 0` ids of the order. -/
theorem blank_count_formula (n : ℕ) (indices : List ℕ) (ws : ℚ)
    (hlen : indices.length = n) :
    (0 ≤ ws → (whiteList n indices ws).length = min (⌊(n : ℚ) * (ws / 100)⌋).toNat n) ∧
      (100 < ws → whiteList n indices ws = indices) ∧
      (ws < 0 → (whiteList n indices ws).length =
        ((n : ℤ) + ⌊(n : ℚ) * (ws / 100)⌋).toNat) := by
  refine ⟨?_, ?_, ?_⟩
  · intro h0
    rw [whiteList_nonneg n indices ws h0, List.length_take, hlen]
  · intro h100
    rw [whiteList_nonneg n indices ws (by linarith)]
    apply List.take_of_length_le
    rw [hlen]
    have hint : (n : ℤ) ≤ ⌊(n : ℚ) * (ws / 100)⌋ := by
      rw [Int.le_floor]
      push_cast
      have hge : (1 : ℚ) ≤ ws / 100 := by linarith
      nlinarith [(Nat.cast_nonneg n : (0 : ℚ) ≤ (n : ℚ))]
    omega
  · intro hneg
    rcases Nat.eq_zero_or_pos n with rfl | hn
    · norm_num [whiteList, jsSliceTo]
    · have hn0 : (0 : ℚ) < (n : ℚ) := by exact_mod_cast hn
      have hflneg : ⌊(n : ℚ) * (ws / 100)⌋ < 0 := by
        rw [Int.floor_lt]
        push_cast
        nlinarith
      unfold whiteList jsSliceTo
      rw [if_pos hflneg, List.length_take, hlen]
      omega

/-- Witness for the amended C7 at `N = 5`, order `[0,1,2,3,4]`,
fraction `40/100`. -/
theorem blank_count_formula_witness :
    (0 ≤ (40 : ℚ) →
        (whiteList 5 [0, 1, 2, 3, 4] 40).length = min (⌊(5 : ℚ) * (40 / 100)⌋).toNat 5) ∧
      (100 < (40 : ℚ) → whiteList 5 [0, 1, 2, 3, 4] 40 = [0, 1, 2, 3, 4]) ∧
      ((40 : ℚ) < 0 → (whiteList 5 [0, 1, 2, 3, 4] 40).length =
        ((5 : ℤ) + ⌊(5 : ℚ) * (40 / 100)⌋).toNat) :=
  blank_count_formula 5 [0, 1, 2, 3, 4] 40 (by norm_num)

/-- Counterexample to C7 as stated: for the negative fraction `-20/100` the
blank set is not empty — it is the four-element prefix `[0,1,2,3]` of the
stored order. -/
theorem blank_count_counterexample :
    (-20 : ℚ) / 100 < 0 ∧ whiteList 5 [0, 1, 2, 3, 4] (-20) = [0, 1, 2, 3] ∧
      whiteList 5 [0, 1, 2, 3, 4] (-20) ≠ [] := by
  refine ⟨by norm_num, ?_, ?_⟩
  · norm_num [whiteList, jsSliceTo]
    decide
  · norm_num [whiteList, jsSliceTo]
    decide

/-- C8: whenever `regenerateLayout` returns, the base-shape ids are exactly
`0, ..., N-1` in emission order, and the stored order — the Fisher-Yates
shuffle of the index list mapped through the id lookup — is a permutation
of `0, ..., N-1`: length `N`, no duplicates. -/
theorem stable_order_is_permutation (cfg : PartCfg) (W H : ℚ) (fuel : ℕ)
    (shapes : List BaseShape) (order : List ℕ)
    (h : regenerateLayout cfg W H fuel = some (shapes, order)) :
    shapes.map (fun s => s.id) = List.range shapes.length ∧
      order.Perm (List.range shapes.length) ∧
      order.length = shapes.length ∧ order.Nodup := by
  unfold regenerateLayout at h
  cases hp : partition cfg fuel 0 0 W H 0 0 with
  | none =>
    rw [hp] at h
    exact Option.noConfusion h
  | some t =>
    obtain ⟨shapes0, c', ri⟩ := t
    rw [hp] at h
    simp only [Option.some.injEq, Prod.mk.injEq] at h
    obtain ⟨rfl, rfl⟩ := h
    obtain ⟨hids, -⟩ := partition_ids cfg fuel 0 0 W H 0 0 shapes0 c' ri hp
    rw [← List.range_eq_range'] at hids
    have hperm := fyAux_perm cfg.rng (shapes0.length - 1) ri (List.range shapes0.length)
    have hptid : ∀ idx ∈ fyAux cfg.rng (shapes0.length - 1) ri (List.range shapes0.length),
        (shapes0.getD idx dummyShape).id = idx := by
      intro idx hidx
      have hlt : idx < shapes0.length := List.mem_range.mp (hperm.mem_iff.mp hidx)
      have h1 : (shapes0.map (fun s => s.id)).getD idx 0 = idx := by
        rw [hids, List.getD_eq_getElem _ _ (by simpa using hlt)]
        simp
      rw [List.getD_eq_getElem _ _ (by simpa using hlt), List.getElem_map] at h1
      rw [List.getD_eq_getElem _ _ hlt]
      exact h1
    have horder : (fyAux cfg.rng (shapes0.length - 1) ri (List.range shapes0.length)).map
        (fun idx => (shapes0.getD idx dummyShape).id) =
        fyAux cfg.rng (shapes0.length - 1) ri (List.range shapes0.length) := by
      rw [List.map_congr_left hptid]
      simp
    rw [horder]
    exact ⟨hids, hperm, hperm.length_eq.trans (List.length_range _),
      hperm.nodup_iff.mpr (List.nodup_range _)⟩

/-- Witness for C8 at a concrete one-leaf regeneration. -/
theorem stable_order_is_permutation_witness :
    ([(⟨0, 0, 0, 100, 100⟩ : BaseShape)]).map (fun s => s.id) =
        List.range ([(⟨0, 0, 0, 100, 100⟩ : BaseShape)]).length ∧
      ([0] : List ℕ).Perm (List.range ([(⟨0, 0, 0, 100, 100⟩ : BaseShape)]).length) ∧
      ([0] : List ℕ).length = ([(⟨0, 0, 0, 100, 100⟩ : BaseShape)]).length ∧
      ([0] : List ℕ).Nodup :=
  stable_order_is_permutation cfgA 100 100 1 [⟨0, 0, 0, 100, 100⟩] [0]
    (by norm_num [regenerateLayout, partition, cfgA, fyAux, dummyShape, List.range_succ])

/-- C9 (amended: with an empty palette the fallback `'#cccccc'` replaces
only the palette lookup — ids in the blank set still receive the blank
marker `'#ffffff'`): with `colors = []` every shape gets `'#ffffff'` when
blanked and `'#cccccc'` otherwise, and the derivation is total (no
exception): it keeps one styled shape per base shape. -/
theorem empty_palette_fallback (base : List BaseShape) (indices : List ℕ) (ws : ℚ)
    (ty : ShapeType) (i : ℕ) (hi : i < base.length) :
    ((generatedShapes base indices [] ws ty).getD i dummyStyled).color =
        (if (base.get ⟨i, hi⟩).id ∈ whiteList base.length indices ws then "#ffffff"
         else "#cccccc") ∧
      (generatedShapes base indices [] ws ty).length = base.length := by
  refine ⟨?_, generatedShapes_length base indices [] ws ty⟩
  rw [generatedShapes_color base indices [] ws ty i hi]
  simp [Nat.mod_one]

/-- Witness for the amended C9: two shapes, empty palette, fraction
`50/100`: the blanked id keeps the blank marker, the other gets the
fallback. -/
theorem empty_palette_fallback_witness :
    ((generatedShapes [⟨0, 0, 0, 10, 10⟩, ⟨1, 10, 0, 10, 10⟩] [0, 1] [] 50
        ShapeType.square).getD 1 dummyStyled).color =
        (if ((([⟨0, 0, 0, 10, 10⟩, ⟨1, 10, 0, 10, 10⟩] :
            List BaseShape)).get ⟨1, by norm_num⟩).id ∈
            whiteList ([⟨0, 0, 0, 10, 10⟩, ⟨1, 10, 0, 10, 10⟩] :
              List BaseShape).length [0, 1] 50 then "#ffffff"
         else "#cccccc") ∧
      (generatedShapes [⟨0, 0, 0, 10, 10⟩, ⟨1, 10, 0, 10, 10⟩] [0, 1] [] 50
        ShapeType.square).length =
        ([⟨0, 0, 0, 10, 10⟩, ⟨1, 10, 0, 10, 10⟩] : List BaseShape).length :=
  empty_palette_fallback [⟨0, 0, 0, 10, 10⟩, ⟨1, 10, 0, 10, 10⟩] [0, 1] 50
    ShapeType.square 1 (by norm_num)

/-- Counterexample to C9 as stated ("all shapes receive the single
fallback neutral color, never the blank marker"): with an empty palette
and fraction `50/100` over two shapes, the shape with id `0` is in the
blank set and receives `'#ffffff'`, which differs from the fallback
`'#cccccc'`. -/
theorem empty_palette_counterexample :
    ((generatedShapes [⟨0, 0, 0, 10, 10⟩, ⟨1, 10, 0, 10, 10⟩] [0, 1] [] 50
        ShapeType.square).getD 0 dummyStyled).color = "#ffffff" ∧
      ("#ffffff" : String) ≠ "#cccccc" := by
  constructor
  · norm_num [generatedShapes, whiteList, jsSliceTo]
  · decide

end ShapeShifter
